import Mathlib

/-!
Shallow embedding of the VBA-documentation tool (src/app.py): the Analyzer
(analyze_vba, extract_logic) and the Report Builder (generate_pdf_documentation).

The analyzer is a set of re.findall / re.split calls.  Each regular expression of
the source is embedded as an explicit backtracking matcher over List Char that
reproduces the Python regex engine on these patterns: at a scan position the
matcher tries alternatives in exactly the order Python does (alternation left to
right, greedy repetitions longest first, lazy repetitions shortest first), and
the findall loop scans positions left to right, resuming after each match.
Repetitions in these patterns only ever repeat a single-character class, so a
greedy piece is embedded as the list of its candidate splits in backtracking
order, searched with findSome?.
-/

/-- Single-quote character (code point 39), the VBA comment marker of the
comments regex in analyze_vba. -/
def sqc : Char := Char.ofNat 39

/-- Python regex class backslash-s on ASCII text: space, tab, newline, carriage
return, form feed, vertical tab. -/
def isPySpace (c : Char) : Bool :=
  c == ' ' || c == '\t' || c == '\n' || c == '\r' || c == Char.ofNat 12 || c == Char.ofNat 11

/-- Python regex class backslash-w on ASCII text: letters, digits, underscore. -/
def isWordChar (c : Char) : Bool := c.isAlphanum || c == '_'

/-- Python regex dot without re.DOTALL: any character except newline. -/
def isDot (c : Char) : Bool := c != '\n'

/-- Case-sensitive literal: consumes exactly the pattern characters and returns
the rest of the input, or fails. -/
def litCS : List Char → List Char → Option (List Char)
  | [], l => some l
  | _ :: _, [] => none
  | p :: ps, c :: cs => if c = p then litCS ps cs else none

/-- Case-insensitive literal (pattern written in lower case), modelling
re.IGNORECASE on ASCII text. -/
def litCI : List Char → List Char → Option (List Char)
  | [], l => some l
  | _ :: _, [] => none
  | p :: ps, c :: cs => if c.toLower = p then litCI ps cs else none

/-- Greedy one-or-more repetition of a one-character class: the rests that the
backtracking engine would try, longest consumed first, at least one character. -/
def plusCands (P : Char → Bool) (l : List Char) : List (List Char) :=
  (List.range (l.takeWhile P).length).map (fun i => l.drop ((l.takeWhile P).length - i))

/-- As plusCands, but also returning the consumed characters, for a capturing
group such as backslash-w-plus in parentheses. -/
def plusCandsC (P : Char → Bool) (l : List Char) : List (List Char × List Char) :=
  (List.range (l.takeWhile P).length).map
    (fun i => (l.take ((l.takeWhile P).length - i), l.drop ((l.takeWhile P).length - i)))

/-- Greedy zero-or-more repetition of a one-character class: candidate rests,
longest consumed first, down to consuming nothing. -/
def starCands (P : Char → Bool) (l : List Char) : List (List Char) :=
  (List.range ((l.takeWhile P).length + 1)).map (fun i => l.drop ((l.takeWhile P).length - i))

/-- One pass of re.findall: scan left to right; at each position try the matcher,
which returns a capture and how many characters the match consumed; on success
emit the capture and resume right after the match (an empty match would advance
one position, as in Python; none of the embedded patterns can match empty); on
failure advance one position.  prev is the character just before the current
position, needed for a word-boundary assertion.  fuel bounds the number of scan
steps; the input length suffices, because every step removes at least one
character, and reFindAll below supplies it. -/
def findAllF (matchAt : Option Char → List Char → Option (α × Nat)) :
    Nat → Option Char → List Char → List α
  | 0, _, _ => []
  | _ + 1, _, [] => []
  | fuel + 1, prev, c :: cs =>
    match matchAt prev (c :: cs) with
    | none => findAllF matchAt fuel (some c) cs
    | some (t, n) =>
      if n = 0 then t :: findAllF matchAt fuel (some c) cs
      else t :: findAllF matchAt fuel ((c :: cs).get? (n - 1)) ((c :: cs).drop n)

/-- re.findall over a whole input. -/
def reFindAll (matchAt : Option Char → List Char → Option (α × Nat)) (l : List Char) : List α :=
  findAllF matchAt l.length none l

/-! ## The module delimiter (analyze_vba lines 68 and 69)

re.split and re.findall both use the pattern: three dashes, space, Module,
colon, space, then a greedy dot-plus (captured by findall), then space and
three dashes.  The two calls use the same pattern (with and without the
capturing group), so one scan computes both results. -/

/-- Try the delimiter pattern at the start of the input; on success return the
captured module name characters and the rest after the match. -/
def delimCore (l : List Char) : Option (List Char × List Char) :=
  (litCS ( "--- Module: ".toList) l).bind (fun l1 =>
    (plusCandsC isDot l1).findSome? (fun p =>
      (litCS ( " ---".toList) p.2).map (fun l3 => (p.1, l3))))

/-- Delimiter matcher returning the captured name and the consumed length. -/
def matchDelimAt (l : List Char) : Option (String × Nat) :=
  (delimCore l).map (fun p => (String.mk p.1, l.length - p.2.length))

/-- Prepend a character to the first segment of a split-in-progress. -/
def consHead (c : Char) : List (List Char) → List (List Char)
  | [] => [[c]]
  | s :: ss => (c :: s) :: ss

/-- Fuelled scan computing re.findall for the module delimiter: the captured
names, in order of the matches.  The scan walks the positions left to right and
resumes after each match; a zero-length match is treated as no match
(unreachable: the delimiter consumes at least 17 characters).  fuel bounds the
scan steps; the input length suffices. -/
def delimNamesF : Nat → List Char → List String
  | 0, _ => []
  | _ + 1, [] => []
  | fuel + 1, c :: cs =>
    match matchDelimAt (c :: cs) with
    | some (nm, n) =>
      if n = 0 then delimNamesF fuel cs
      else nm :: delimNamesF fuel ((c :: cs).drop n)
    | none => delimNamesF fuel cs

/-- Fuelled scan computing re.split for the module delimiter: the segments
between the matches, one more than the number of matches, segment 0 being the
text before the first match.  Same scan as delimNamesF: the two source calls
use the same pattern, once with and once without the capturing group. -/
def delimSegsF : Nat → List Char → List (List Char)
  | 0, _ => [[]]
  | _ + 1, [] => [[]]
  | fuel + 1, c :: cs =>
    match matchDelimAt (c :: cs) with
    | some (_, n) =>
      if n = 0 then consHead c (delimSegsF fuel cs)
      else [] :: delimSegsF fuel ((c :: cs).drop n)
    | none => consHead c (delimSegsF fuel cs)

/-- module_names of analyze_vba line 69. -/
def delimNames (l : List Char) : List String := delimNamesF l.length l

/-- modules of analyze_vba line 68. -/
def delimSegs (l : List Char) : List (List Char) := delimSegsF l.length l

/-- The (name, text) pairs the analyze_vba loop walks: modules[1:] indexed by
module_names, i.e. the text before the first delimiter is dropped. -/
def moduleSources (l : List Char) : List (String × List Char) :=
  (delimNames l).zip ((delimSegs l).drop 1)

/-! ## Signatures (analyze_vba line 73)

Pattern: optional qualifier Public-space or Private-space, then Sub or
Function, whitespace-plus, captured word-plus, whitespace-star, open
parenthesis, lazy captured dot-star under re.DOTALL, close parenthesis. -/

/-- The part after the optional qualifier and the Sub or Function keyword. -/
def funcTail (l0 : List Char) : Option (List Char × List Char × List Char) :=
  (plusCands isPySpace l0).findSome? (fun l2 =>
    (plusCandsC isWordChar l2).findSome? (fun nm =>
      (starCands isPySpace nm.2).findSome? (fun l4 =>
        (litCS ( "(".toList) l4).bind (fun l5 =>
          (litCS ( ")".toList) (l5.drop (l5.takeWhile (fun c => c != ')')).length)).map
            (fun l6 => (nm.1, l5.takeWhile (fun c => c != ')'), l6))))))

/-- Sub or Function alternation, tried left to right as Python does. -/
def funcSF (l0 : List Char) : Option (List Char × List Char × List Char) :=
  ((litCS ( "Sub".toList) l0).bind funcTail) <|> ((litCS ( "Function".toList) l0).bind funcTail)

/-- Whole signature pattern at one position: greedy optional qualifier first
(Public then Private), then without a qualifier. -/
def funcCore (l : List Char) : Option (List Char × List Char × List Char) :=
  ((litCS ( "Public ".toList) l).bind funcSF) <|>
    (((litCS ( "Private ".toList) l).bind funcSF) <|> funcSF l)

/-- Signature matcher: captures (name, parameter text). -/
def matchFuncAt (l : List Char) : Option ((String × String) × Nat) :=
  (funcCore l).map (fun r => ((String.mk r.1, String.mk r.2.1), l.length - r.2.2.length))

/-- functions field: re.findall of the signature pattern. -/
def findFunctionsL (l : List Char) : List (String × String) :=
  reFindAll (fun _ t => matchFuncAt t) l

/-! ## Declarations (analyze_vba line 74)

Pattern: Dim, whitespace-plus, captured word-plus, whitespace-plus, As,
whitespace-plus, captured word-plus.  Case sensitive, no flags. -/

/-- Declaration pattern at one position: captures (name, type) and the rest. -/
def varCore (l : List Char) : Option (List Char × List Char × List Char) :=
  (litCS ( "Dim".toList) l).bind (fun l1 =>
    (plusCands isPySpace l1).findSome? (fun l2 =>
      (plusCandsC isWordChar l2).findSome? (fun nm =>
        (plusCands isPySpace nm.2).findSome? (fun l4 =>
          (litCS ( "As".toList) l4).bind (fun l5 =>
            (plusCands isPySpace l5).findSome? (fun l6 =>
              (plusCandsC isWordChar l6).findSome? (fun ty => some (nm.1, ty.1, ty.2))))))))

/-- Declaration matcher. -/
def matchVarAt (l : List Char) : Option ((String × String) × Nat) :=
  (varCore l).map (fun r => ((String.mk r.1, String.mk r.2.1), l.length - r.2.2.length))

/-- variables field: re.findall of the declaration pattern. -/
def findVariablesL (l : List Char) : List (String × String) :=
  reFindAll (fun _ t => matchVarAt t) l

/-! ## Comments (analyze_vba line 75)

Pattern: single quote, captured greedy dot-plus, end-of-line anchor, under
re.MULTILINE, so the anchor matches at the end of the input and before every
newline.  The greedy dot-plus stops at the newline, where the anchor always
holds, so the maximal candidate is taken; a quote with nothing after it on its
line does not match, since dot-plus needs at least one character. -/

/-- Comment pattern at one position: the captured body and the rest. -/
def commentCore (l : List Char) : Option (List Char × List Char) :=
  (litCS (sqc :: []) l).bind (fun l1 =>
    (plusCandsC isDot l1).findSome? (fun p =>
      if p.2 = [] ∨ p.2.head? = some '\n' then some p else none))

/-- Comment matcher. -/
def matchCommentAt (l : List Char) : Option (String × Nat) :=
  (commentCore l).map (fun p => (String.mk p.1, l.length - p.2.length))

/-- comments field: re.findall of the comment pattern. -/
def findCommentsL (l : List Char) : List String :=
  reFindAll (fun _ t => matchCommentAt t) l

/-! ## Control flow (extract_logic, lines 88 to 96)

Three findall passes, all under re.IGNORECASE, with their results concatenated
in that fixed order: loop headers, then conditionals, then call sites. -/

/-- Common shape keyword, whitespace-plus, keyword, whitespace-plus, greedy
dot-plus, used by the Do While, Do Until and Loop Until alternatives. -/
def kwKwDot (k1 k2 : List Char) (l : List Char) : Option (List Char) :=
  (litCI k1 l).bind (fun l1 =>
    (plusCands isPySpace l1).findSome? (fun l2 =>
      (litCI k2 l2).bind (fun l3 =>
        (plusCands isPySpace l3).findSome? (fun l4 =>
          (plusCands isDot l4).findSome? (fun l5 => some l5)))))

/-- First loop alternative: For, whitespace-plus, dot-plus, whitespace-plus,
To, whitespace-plus, dot-plus. -/
def loopForTo (l : List Char) : Option (List Char) :=
  (litCI ( "for".toList) l).bind (fun l1 =>
    (plusCands isPySpace l1).findSome? (fun l2 =>
      (plusCands isDot l2).findSome? (fun l3 =>
        (plusCands isPySpace l3).findSome? (fun l4 =>
          (litCI ( "to".toList) l4).bind (fun l5 =>
            (plusCands isPySpace l5).findSome? (fun l6 =>
              (plusCands isDot l6).findSome? (fun l7 => some l7)))))))

/-- Loop-header alternation, in the order of the source pattern. -/
def loopCore (l : List Char) : Option (List Char) :=
  loopForTo l <|>
    (kwKwDot ( "do".toList) ( "while".toList) l <|>
      (kwKwDot ( "do".toList) ( "until".toList) l <|>
        kwKwDot ( "loop".toList) ( "until".toList) l))

/-- Loop matcher: the whole matched span is the capture. -/
def matchLoopAt (l : List Char) : Option (String × Nat) :=
  (loopCore l).map (fun r => (String.mk (l.take (l.length - r.length)), l.length - r.length))

/-- Loop headers pass of extract_logic. -/
def findLoopsL (l : List Char) : List String :=
  reFindAll (fun _ t => matchLoopAt t) l

/-- Conditional pattern: If, whitespace-plus, dot-plus, whitespace-plus, Then,
whitespace-plus, dot-plus.  The whitespace classes also match newlines. -/
def condCore (l : List Char) : Option (List Char) :=
  (litCI ( "if".toList) l).bind (fun l1 =>
    (plusCands isPySpace l1).findSome? (fun l2 =>
      (plusCands isDot l2).findSome? (fun l3 =>
        (plusCands isPySpace l3).findSome? (fun l4 =>
          (litCI ( "then".toList) l4).bind (fun l5 =>
            (plusCands isPySpace l5).findSome? (fun l6 =>
              (plusCands isDot l6).findSome? (fun l7 => some l7)))))))

/-- Conditional matcher: the whole matched span is the capture. -/
def matchCondAt (l : List Char) : Option (String × Nat) :=
  (condCore l).map (fun r => (String.mk (l.take (l.length - r.length)), l.length - r.length))

/-- Conditionals pass of extract_logic. -/
def findCondsL (l : List Char) : List String :=
  reFindAll (fun _ t => matchCondAt t) l

/-- Call pattern body after the word boundary: Call, whitespace-plus, captured
word-plus. -/
def callCore (l : List Char) : Option (List Char × List Char) :=
  (litCI ( "call".toList) l).bind (fun l1 =>
    (plusCands isPySpace l1).findSome? (fun l2 =>
      (plusCandsC isWordChar l2).findSome? (fun p => some p)))

/-- Call matcher.  The leading word boundary holds exactly when the previous
character is absent or not a word character, since the match starts with the
word character C of Call. -/
def matchCallAt (prev : Option Char) (l : List Char) : Option (String × Nat) :=
  match prev with
  | some c =>
    if isWordChar c then none
    else (callCore l).map (fun p => (String.mk p.1, l.length - p.2.length))
  | none => (callCore l).map (fun p => (String.mk p.1, l.length - p.2.length))

/-- Call sites pass of extract_logic: only the identifier is captured. -/
def findCallsL (l : List Char) : List String :=
  reFindAll matchCallAt l

/-- extract_logic: the three passes concatenated in the fixed source order
loops, conditionals, calls. -/
def extract_logic (m : List Char) : List String :=
  findLoopsL m ++ findCondsL m ++ findCallsL m

/-- Python str.strip: whitespace removed from both ends. -/
def pyStrip (l : List Char) : List Char :=
  ((l.dropWhile isPySpace).reverse.dropWhile isPySpace).reverse

/-- The per-module record built in the analyze_vba loop (lines 78 to 84); varDecls
models the variables entry (the word variables is reserved in Lean). -/
structure ModuleAnalysis where
  functions : List (String × String)
  varDecls : List (String × String)
  comments : List String
  logic : List String
  full_code : String
deriving DecidableEq, Repr

/-- The analysis of one module text (the body of the analyze_vba loop). -/
def analyzeModuleL (m : List Char) : ModuleAnalysis where
  functions := findFunctionsL m
  varDecls := findVariablesL m
  comments := findCommentsL m
  logic := extract_logic m
  full_code := String.mk (pyStrip m)

/-- String-level wrapper for the analysis of one module. -/
def analyze_module (m : String) : ModuleAnalysis := analyzeModuleL m.toList

/-- Python dict insertion: a later entry with an existing key overwrites the
value in place, otherwise the entry is appended. -/
def dictInsert (d : List (String × ModuleAnalysis)) (k : String) (v : ModuleAnalysis) :
    List (String × ModuleAnalysis) :=
  if d.any (fun p => p.1 == k) then d.map (fun p => if p.1 == k then (k, v) else p)
  else d ++ [(k, v)]

/-- analyze_vba: split the blob, analyze each module, build the mapping in
order of appearance. -/
def analyzeVbaL (blob : List Char) : List (String × ModuleAnalysis) :=
  (moduleSources blob).foldl (fun d p => dictInsert d p.1 (analyzeModuleL p.2)) []

/-- String-level analyze_vba. -/
def analyze_vba (blob : String) : List (String × ModuleAnalysis) := analyzeVbaL blob.toList

/-! ## Report Builder (generate_pdf_documentation, lines 98 to 188)

The reportlab story is modelled as a list of flowables; paragraph styles are
identified by their style names. -/

/-- A flowable of the generated document. -/
inductive Flowable where
  | para : String → String → Flowable
  | spacer : Nat → Nat → Flowable
  | table : List (List String) → Flowable
deriving DecidableEq, Repr

/-- Functions table block (lines 121 to 140): emitted only when non-empty. -/
def functionsBlock (fns : List (String × String)) : List Flowable :=
  if fns.isEmpty then []
  else
    [Flowable.para "Functions and Subroutines:" "Heading2",
     Flowable.table ([[ "Name", "Parameters"]] ++ fns.map (fun f => [f.1, f.2])),
     Flowable.spacer 1 12]

/-- Variables table block (lines 142 to 161): emitted only when non-empty. -/
def variablesBlock (vs : List (String × String)) : List Flowable :=
  if vs.isEmpty then []
  else
    [Flowable.para "Variables:" "Heading2",
     Flowable.table ([[ "Name", "Type"]] ++ vs.map (fun v => [v.1, v.2])),
     Flowable.spacer 1 12]

/-- Comments block (lines 163 to 169): heading, the first ten comments
verbatim, a summary line when more than ten exist, then a spacer; emitted only
when non-empty. -/
def commentLines (comments : List String) : List Flowable :=
  if comments.isEmpty then []
  else
    [Flowable.para "Comments:" "Heading2"] ++
      (comments.take 10).map (fun c => Flowable.para c "Normal") ++
      (if 10 < comments.length then
        [Flowable.para ( "... and " ++ toString (comments.length - 10) ++ " more comments")
          "Normal"]
      else []) ++
      [Flowable.spacer 1 12]

/-- Logic block (lines 171 to 175): emitted only when non-empty. -/
def logicBlock (lg : List String) : List Flowable :=
  if lg.isEmpty then []
  else
    [Flowable.para "Logic:" "Heading2"] ++ lg.map (fun s => Flowable.para s "Normal") ++
      [Flowable.spacer 1 12]

/-- Full Code block (lines 177 to 181): always emitted. -/
def fullCodeBlock (code : String) : List Flowable :=
  [Flowable.para "Full Code:" "Heading2"] ++
    (code.splitOn "\n").map (fun ln => Flowable.para ln "Code") ++ [Flowable.spacer 1 12]

/-- One module section of the story (lines 117 to 181). -/
def moduleStory (nm : String) (d : ModuleAnalysis) : List Flowable :=
  [Flowable.para ( "Module: " ++ nm) "Heading1", Flowable.spacer 1 12] ++
    functionsBlock d.functions ++ variablesBlock d.varDecls ++ commentLines d.comments ++
    logicBlock d.logic ++ fullCodeBlock d.full_code

/-- The whole story: title block then one section per mapping entry, in
mapping order. -/
def generate_pdf_documentation (analysis : List (String × ModuleAnalysis)) : List Flowable :=
  [Flowable.para "VBA Code Documentation" "Title", Flowable.spacer 1 12] ++
    analysis.flatMap (fun p => moduleStory p.1 p.2)

/-! ## Concrete texts used in the theorems below. -/

/-- Two-module blob with non-empty module texts. -/
def blobTwo : List Char := "--- Module: A ---\nx\n--- Module: B ---\ny".toList

/-- A blob that is exactly one delimiter: one name is captured but the text
after it is empty. -/
def blobBare : List Char := "--- Module: A ---".toList

/-- A blob without any delimiter. -/
def blobPlain : List Char := "Sub A()\nEnd Sub".toList

/-- Pre-delimiter junk for the discard property. -/
def junkPre : List Char := "junk\n".toList

/-- A one-module blob for the discard property. -/
def blobOne : List Char := "--- Module: M ---\nx".toList

/-- Module text: loop, conditional, call, in source order. -/
def srcFwd : List Char := "For i = 1 To 10\nIf x > 0 Then y = 1\nCall DoWork".toList

/-- Module text: call, conditional, loop, in source order. -/
def srcRev : List Char := "Call DoWork\nIf x > 0 Then y = 1\nFor i = 1 To 10".toList

/-- A conditional whose Then clause continues on the next line. -/
def srcIfCont : List Char := "If a Then\nb".toList

/-- A whitespace-separated multi-line If, Then, End If block. -/
def srcIfBlock : List Char := "If a\nThen\nEnd If".toList

/-- A conditional followed by a further line. -/
def srcIfRest : List Char := "If a Then b\nZ".toList

/-- A line whose single-quote marker is its last character. -/
def lineBareQuote : List Char := ('x' :: ' ' :: '=' :: ' ' :: '1' :: ' ' :: sqc :: [])

/-- Module text containing a single recognized declaration. -/
def srcDimOk : String := "Sub F()\nDim total As Integer\nEnd Sub"

/-- Comma-joined multi-variable declaration, not recognized. -/
def srcDimMulti : String := "Dim a, b As Integer"

/-- All-lowercase module text: declarations are invisible, the call is not. -/
def srcLower : String := "sub foo(x)\ndim total as integer\ncall dowork"

/-- Another all-lowercase module text, for the witness. -/
def srcLowerW : String := "private sub q(a)\ndim n as long"

/-- Twelve comment strings for the rendering property. -/
def twelveComments : List String := (List.range 12).map (fun i => toString i)

/-! ## Step lemmas for the scans -/

/-- delimNamesF step when the position does not match. -/
theorem delimNamesF_cons_none {f : Nat} {c : Char} {cs : List Char}
    (h : matchDelimAt (c :: cs) = none) :
    delimNamesF (f + 1) (c :: cs) = delimNamesF f cs := by
  simp [delimNamesF, h]

/-- delimNamesF step when the position matches and consumes n characters. -/
theorem delimNamesF_cons_some {f : Nat} {c : Char} {cs : List Char} {nm : String} {n : Nat}
    (h : matchDelimAt (c :: cs) = some (nm, n)) (hn : n ≠ 0) :
    delimNamesF (f + 1) (c :: cs) = nm :: delimNamesF f ((c :: cs).drop n) := by
  simp [delimNamesF, h, hn]

/-- delimNamesF on the empty input, whatever the fuel. -/
theorem delimNamesF_nil : ∀ f : Nat, delimNamesF f [] = [] := by
  intro f; cases f <;> simp [delimNamesF]

/-- delimSegsF step when the position does not match. -/
theorem delimSegsF_cons_none {f : Nat} {c : Char} {cs : List Char}
    (h : matchDelimAt (c :: cs) = none) :
    delimSegsF (f + 1) (c :: cs) = consHead c (delimSegsF f cs) := by
  simp [delimSegsF, h]

/-- delimSegsF step when the position matches and consumes n characters. -/
theorem delimSegsF_cons_some {f : Nat} {c : Char} {cs : List Char} {nm : String} {n : Nat}
    (h : matchDelimAt (c :: cs) = some (nm, n)) (hn : n ≠ 0) :
    delimSegsF (f + 1) (c :: cs) = [] :: delimSegsF f ((c :: cs).drop n) := by
  simp [delimSegsF, h, hn]

/-- delimSegsF on the empty input, whatever the fuel. -/
theorem delimSegsF_nil : ∀ f : Nat, delimSegsF f [] = [[]] := by
  intro f; cases f <;> simp [delimSegsF]

/-- re.split always produces one more piece than there are matches. -/
theorem delimSegsF_length (fuel : Nat) :
    ∀ l, (delimSegsF fuel l).length = (delimNamesF fuel l).length + 1 := by
  induction fuel with
  | zero => intro l; simp [delimSegsF, delimNamesF]
  | succ f ih =>
    intro l
    cases l with
    | nil => simp [delimSegsF, delimNamesF]
    | cons c cs =>
      cases hm : matchDelimAt (c :: cs) with
      | none =>
        rw [delimNamesF_cons_none hm, delimSegsF_cons_none hm]
        have h := ih cs
        cases hseg : delimSegsF f cs with
        | nil => rw [hseg] at h; simp at h
        | cons s ss => rw [hseg] at h; simpa [consHead] using h
      | some p =>
        obtain ⟨nm, n⟩ := p
        by_cases hn : n = 0
        · subst hn
          have hs : delimSegsF (f + 1) (c :: cs) = consHead c (delimSegsF f cs) := by
            simp [delimSegsF, hm]
          have hn2 : delimNamesF (f + 1) (c :: cs) = delimNamesF f cs := by
            simp [delimNamesF, hm]
          rw [hs, hn2]
          have h := ih cs
          cases hseg : delimSegsF f cs with
          | nil => rw [hseg] at h; simp at h
          | cons s ss => rw [hseg] at h; simpa [consHead] using h
        · rw [delimNamesF_cons_some hm hn, delimSegsF_cons_some hm hn]
          simpa using ih ((c :: cs).drop n)

/-- The split of the whole input: one more piece than captured names. -/
theorem delimSegs_length (l : List Char) :
    (delimSegs l).length = (delimNames l).length + 1 :=
  delimSegsF_length l.length l

/-- The fuel of delimNamesF does not matter once it covers the input length. -/
theorem delimNamesF_fuel : ∀ f1 f2 l, l.length ≤ f1 → l.length ≤ f2 →
    delimNamesF f1 l = delimNamesF f2 l := by
  intro f1
  induction f1 with
  | zero =>
    intro f2 l h1 _
    have hl : l = [] := List.length_eq_zero.mp (Nat.le_zero.mp h1)
    subst hl
    rw [delimNamesF_nil, delimNamesF_nil]
  | succ f ih =>
    intro f2 l h1 h2
    cases l with
    | nil => rw [delimNamesF_nil, delimNamesF_nil]
    | cons c cs =>
      cases f2 with
      | zero => simp at h2
      | succ g =>
        cases hm : matchDelimAt (c :: cs) with
        | none =>
          rw [delimNamesF_cons_none hm, delimNamesF_cons_none hm]
          exact ih g cs (by simpa using h1) (by simpa using h2)
        | some p =>
          obtain ⟨nm, n⟩ := p
          by_cases hn : n = 0
          · subst hn
            have e1 : delimNamesF (f + 1) (c :: cs) = delimNamesF f cs := by
              simp [delimNamesF, hm]
            have e2 : delimNamesF (g + 1) (c :: cs) = delimNamesF g cs := by
              simp [delimNamesF, hm]
            rw [e1, e2]
            exact ih g cs (by simpa using h1) (by simpa using h2)
          · rw [delimNamesF_cons_some hm hn, delimNamesF_cons_some hm hn]
            rw [ih g ((c :: cs).drop n) (by simp [List.length_drop] at h1 ⊢; omega)
              (by simp [List.length_drop] at h2 ⊢; omega)]

/-- The fuel of delimSegsF does not matter once it covers the input length. -/
theorem delimSegsF_fuel : ∀ f1 f2 l, l.length ≤ f1 → l.length ≤ f2 →
    delimSegsF f1 l = delimSegsF f2 l := by
  intro f1
  induction f1 with
  | zero =>
    intro f2 l h1 _
    have hl : l = [] := List.length_eq_zero.mp (Nat.le_zero.mp h1)
    subst hl
    rw [delimSegsF_nil, delimSegsF_nil]
  | succ f ih =>
    intro f2 l h1 h2
    cases l with
    | nil => rw [delimSegsF_nil, delimSegsF_nil]
    | cons c cs =>
      cases f2 with
      | zero => simp at h2
      | succ g =>
        cases hm : matchDelimAt (c :: cs) with
        | none =>
          rw [delimSegsF_cons_none hm, delimSegsF_cons_none hm]
          rw [ih g cs (by simpa using h1) (by simpa using h2)]
        | some p =>
          obtain ⟨nm, n⟩ := p
          by_cases hn : n = 0
          · subst hn
            have e1 : delimSegsF (f + 1) (c :: cs) = consHead c (delimSegsF f cs) := by
              simp [delimSegsF, hm]
            have e2 : delimSegsF (g + 1) (c :: cs) = consHead c (delimSegsF g cs) := by
              simp [delimSegsF, hm]
            rw [e1, e2, ih g cs (by simpa using h1) (by simpa using h2)]
          · rw [delimSegsF_cons_some hm hn, delimSegsF_cons_some hm hn]
            rw [ih g ((c :: cs).drop n) (by simp [List.length_drop] at h1 ⊢; omega)
              (by simp [List.length_drop] at h2 ⊢; omega)]

/-- If no delimiter match starts inside the first p positions, the names found
in p ++ s are exactly the names found in s. -/
theorem delimNamesF_skip : ∀ p s : List Char, ∀ f : Nat,
    (∀ i, i < p.length → matchDelimAt ((p ++ s).drop i) = none) →
    (p ++ s).length ≤ f →
    delimNamesF f (p ++ s) = delimNames s := by
  intro p
  induction p with
  | nil =>
    intro s f _ hf
    simpa using delimNamesF_fuel f s.length s (by simpa using hf) (le_refl _)
  | cons c p' ih =>
    intro s f h hf
    cases f with
    | zero => simp at hf
    | succ g =>
      have h0 : matchDelimAt (c :: (p' ++ s)) = none := by
        have := h 0 (by simp)
        simpa using this
      rw [show (c :: p') ++ s = c :: (p' ++ s) from rfl, delimNamesF_cons_none h0]
      exact ih s g
        (fun i hi => by
          have := h (i + 1) (by simp; omega)
          simpa using this)
        (by simp at hf ⊢; omega)

/-- If no delimiter match starts inside the first p positions, the split of
p ++ s is the split of s with p prepended to the first piece. -/
theorem delimSegsF_skip : ∀ p s : List Char, ∀ f : Nat,
    (∀ i, i < p.length → matchDelimAt ((p ++ s).drop i) = none) →
    (p ++ s).length ≤ f →
    delimSegsF f (p ++ s) = (p ++ (delimSegs s).headD []) :: (delimSegs s).tail := by
  intro p
  induction p with
  | nil =>
    intro s f _ hf
    have he : delimSegsF f s = delimSegs s :=
      delimSegsF_fuel f s.length s (by simpa using hf) (le_refl _)
    simp only [List.nil_append]
    rw [he]
    have hlen := delimSegs_length s
    cases hseg : delimSegs s with
    | nil => rw [hseg] at hlen; simp at hlen
    | cons s0 ss => simp
  | cons c p' ih =>
    intro s f h hf
    cases f with
    | zero => simp at hf
    | succ g =>
      have h0 : matchDelimAt (c :: (p' ++ s)) = none := by
        have := h 0 (by simp)
        simpa using this
      rw [show (c :: p') ++ s = c :: (p' ++ s) from rfl, delimSegsF_cons_none h0]
      rw [ih s g
        (fun i hi => by
          have := h (i + 1) (by simp; omega)
          simpa using this)
        (by simp at hf ⊢; omega)]
      simp [consHead]

/-- Discarding text in front of the first delimiter does not change the module
sources the analyzer walks. -/
theorem moduleSources_skip (p s : List Char)
    (h : ∀ i, i < p.length → matchDelimAt ((p ++ s).drop i) = none) :
    moduleSources (p ++ s) = moduleSources s := by
  have hn : delimNames (p ++ s) = delimNames s :=
    delimNamesF_skip p s (p ++ s).length h (le_refl _)
  have hs : delimSegs (p ++ s) = (p ++ (delimSegs s).headD []) :: (delimSegs s).tail :=
    delimSegsF_skip p s (p ++ s).length h (le_refl _)
  have hdrop : (delimSegs (p ++ s)).drop 1 = (delimSegs s).drop 1 := by
    rw [hs]
    have hlen := delimSegs_length s
    cases hseg : delimSegs s with
    | nil => rw [hseg] at hlen; simp at hlen
    | cons s0 ss => simp
  unfold moduleSources
  rw [hn, hdrop]

/-- C7: for every blob whose first delimiter occurrence is preceded by text,
the analysis equals the analysis of the blob with that preceding text removed:
the pre-first-delimiter text is discarded unconditionally and appears in no
field of any ModuleAnalysis. -/
theorem c7_pre_delimiter_text_discarded (p s : List Char) (_hp : p ≠ [])
    (h : ∀ i, i < p.length → matchDelimAt ((p ++ s).drop i) = none) :
    analyzeVbaL (p ++ s) = analyzeVbaL s := by
  unfold analyzeVbaL
  rw [moduleSources_skip p s h]

/-- Witness for C7 at a concrete blob with junk before the first delimiter. -/
theorem c7_witness : analyzeVbaL (junkPre ++ blobOne) = analyzeVbaL blobOne :=
  c7_pre_delimiter_text_discarded junkPre blobOne (by decide) (by decide)

/-- C1: for every blob in which each delimiter is followed by non-empty text,
the split returns exactly as many (name, text) entries as there are delimiter
matches, in their order of appearance, the names being exactly the captured
names and the texts the segments that follow the delimiters. -/
theorem c1_split_pairs_names_with_segments (blob : List Char)
    (_hne : ∀ seg ∈ (delimSegs blob).drop 1, seg ≠ []) :
    (moduleSources blob).length = (delimNames blob).length ∧
    (moduleSources blob).map Prod.fst = delimNames blob ∧
    (moduleSources blob).map Prod.snd = (delimSegs blob).drop 1 := by
  have hlen : ((delimSegs blob).drop 1).length = (delimNames blob).length := by
    rw [List.length_drop, delimSegs_length]
    omega
  refine ⟨?_, ?_, ?_⟩
  · unfold moduleSources
    rw [List.length_zip, hlen]
    simp
  · exact List.map_fst_zip _ _ (by rw [hlen])
  · exact List.map_snd_zip _ _ (by rw [hlen])

/-- Witness for C1 on a blob with two delimiters, each followed by non-empty
text; the captured names evaluate to A and B. -/
theorem c1_witness :
    ((moduleSources blobTwo).length = (delimNames blobTwo).length ∧
      (moduleSources blobTwo).map Prod.fst = delimNames blobTwo ∧
      (moduleSources blobTwo).map Prod.snd = (delimSegs blobTwo).drop 1) ∧
    delimNames blobTwo = [ "A", "B"] :=
  ⟨c1_split_pairs_names_with_segments blobTwo (by decide), by decide⟩

/-- C3 is false as stated: in the blob that consists of exactly one delimiter,
one name is captured but zero non-empty segments follow delimiters, and the
empty trailing segment still contributes a mapping entry. -/
theorem c3_counterexample :
    (delimNames blobBare).length = 1 ∧
    ((delimSegs blobBare).drop 1).filter (fun s => !s.isEmpty) = [] ∧
    (analyzeVbaL blobBare).length = 1 := by
  exact ⟨by decide, by decide, by decide⟩

/-- C3 (amended): the number of names captured by split equals the number of
all text segments following delimiters, empty segments included, and every
such segment is paired with its name as a module source (so an empty trailing
segment still contributes an entry). -/
theorem c3_names_count_segments (blob : List Char) :
    (delimSegs blob).length = (delimNames blob).length + 1 ∧
    (moduleSources blob).length = (delimNames blob).length := by
  refine ⟨delimSegs_length blob, ?_⟩
  unfold moduleSources
  rw [List.length_zip, List.length_drop, delimSegs_length]
  simp

/-- C6: a blob with zero delimiter matches yields an empty split and an empty
analysis mapping. -/
theorem c6_no_delimiters_empty (blob : List Char) (h : delimNames blob = []) :
    moduleSources blob = [] ∧ analyzeVbaL blob = [] := by
  have h1 : moduleSources blob = [] := by
    unfold moduleSources
    rw [h]
    rfl
  exact ⟨h1, by unfold analyzeVbaL; rw [h1]; rfl⟩

/-- Witness for C6 on a delimiter-free blob. -/
theorem c6_witness : moduleSources blobPlain = [] ∧ analyzeVbaL blobPlain = [] :=
  c6_no_delimiters_empty blobPlain (by decide)

/-- C5: extract_logic lists all loop-header matches first, then all
conditional matches, then all call-site identifiers, in that fixed category
order; on the source-order input loop, conditional, call and on the reversed
source order call, conditional, loop the result is the same fixed-order
list. -/
theorem c5_fixed_category_order :
    (∀ m : List Char, extract_logic m = findLoopsL m ++ findCondsL m ++ findCallsL m) ∧
    extract_logic srcFwd = [ "For i = 1 To 10", "If x > 0 Then y = 1", "DoWork"] ∧
    extract_logic srcRev = [ "For i = 1 To 10", "If x > 0 Then y = 1", "DoWork"] :=
  ⟨fun _ => rfl, by decide, by decide⟩

/-- C9: analyzeModule on a text containing a two-token declaration yields
exactly that (name, type) pair, and on the comma-joined multi-variable
declaration it yields nothing at all, in particular no entry for b. -/
theorem c9_single_variable_declarations_only :
    (analyze_module srcDimOk).varDecls = [( "total", "Integer")] ∧
    (analyze_module srcDimMulti).varDecls = [] :=
  ⟨by decide, by decide⟩

/-! ## Case sensitivity of the signature and declaration patterns -/

/-- A case-sensitive literal fails when the first characters differ. -/
theorem litCS_head_ne {p c : Char} {ps cs : List Char} (h : ¬ c = p) :
    litCS (p :: ps) (c :: cs) = none := by
  simp [litCS, h]

/-- The Sub or Function alternation fails unless the position starts with an
upper-case S or F. -/
theorem funcSF_cons_none {c : Char} {cs : List Char} (hS : ¬ c = 'S') (hF : ¬ c = 'F') :
    funcSF (c :: cs) = none := by
  simp [funcSF, litCS, hS, hF]

/-- The signature pattern fails unless the position starts with P, S or F. -/
theorem funcCore_cons_none {c : Char} {cs : List Char}
    (hP : ¬ c = 'P') (hS : ¬ c = 'S') (hF : ¬ c = 'F') :
    funcCore (c :: cs) = none := by
  simp [funcCore, litCS, hP, funcSF_cons_none hS hF]

/-- The declaration pattern fails unless the position starts with D. -/
theorem varCore_cons_none {c : Char} {cs : List Char} (hD : ¬ c = 'D') :
    varCore (c :: cs) = none := by
  simp [varCore, litCS, hD]

/-- A findall pass returns nothing when the matcher fails on every list whose
characters all satisfy P and the input characters all satisfy P. -/
theorem findAllF_nil_of_none {α : Type} (matchAt : Option Char → List Char → Option (α × Nat))
    (P : Char → Bool)
    (hm : ∀ prev l, (∀ c ∈ l, P c = true) → matchAt prev l = none) :
    ∀ l fuel prev, (∀ c ∈ l, P c = true) → findAllF matchAt fuel prev l = [] := by
  intro l
  induction l with
  | nil => intro fuel prev _; cases fuel <;> simp [findAllF]
  | cons c cs ih =>
    intro fuel prev h
    cases fuel with
    | zero => simp [findAllF]
    | succ f =>
      have h0 : matchAt prev (c :: cs) = none := hm prev (c :: cs) h
      simp only [findAllF, h0]
      exact ih f (some c) (fun x hx => h x (List.mem_cons_of_mem c hx))

/-- The signature matcher fails on inputs without upper-case characters. -/
theorem matchFuncAt_none_lower (_prev : Option Char) (l : List Char)
    (h : ∀ c ∈ l, c.isUpper = false) : matchFuncAt l = none := by
  cases l with
  | nil => rfl
  | cons c cs =>
    have hc : c.isUpper = false := h c (by simp)
    have hP : ¬ c = 'P' := fun he => by rw [he] at hc; simp at hc
    have hS : ¬ c = 'S' := fun he => by rw [he] at hc; simp at hc
    have hF : ¬ c = 'F' := fun he => by rw [he] at hc; simp at hc
    simp [matchFuncAt, funcCore_cons_none hP hS hF]

/-- The declaration matcher fails on inputs without upper-case characters. -/
theorem matchVarAt_none_lower (_prev : Option Char) (l : List Char)
    (h : ∀ c ∈ l, c.isUpper = false) : matchVarAt l = none := by
  cases l with
  | nil => rfl
  | cons c cs =>
    have hc : c.isUpper = false := h c (by simp)
    have hD : ¬ c = 'D' := fun he => by rw [he] at hc; simp at hc
    simp [matchVarAt, varCore_cons_none hD]

/-- C10: signature and declaration recognition is case sensitive, unlike
control-flow recognition: a module text without upper-case characters yields no
signatures and no declarations, and on the concrete all-lowercase module text
the lowercase call still produces its call-site mention. -/
theorem c10_case_sensitivity :
    (∀ l : List Char, (∀ c ∈ l, c.isUpper = false) →
      findFunctionsL l = [] ∧ findVariablesL l = []) ∧
    (analyze_module srcLower).functions = [] ∧
    (analyze_module srcLower).varDecls = [] ∧
    (analyze_module srcLower).logic = [ "dowork"] := by
  refine ⟨fun l hl => ⟨?_, ?_⟩, by decide, by decide, by decide⟩
  · exact findAllF_nil_of_none _ (fun c => !c.isUpper)
      (fun prev t ht => matchFuncAt_none_lower prev t
        (fun c hc => by have := ht c hc; simpa using this))
      l l.length none (fun c hc => by simpa using hl c hc)
  · exact findAllF_nil_of_none _ (fun c => !c.isUpper)
      (fun prev t ht => matchVarAt_none_lower prev t
        (fun c hc => by have := ht c hc; simpa using this))
      l l.length none (fun c hc => by simpa using hl c hc)

/-- Witness for C10 at another all-lowercase module text. -/
theorem c10_witness :
    findFunctionsL (srcLowerW.toList) = [] ∧ findVariablesL (srcLowerW.toList) = [] :=
  c10_case_sensitivity.1 (srcLowerW.toList) (by decide)

/-! ## The comment pattern, line by line -/

/-- takeWhile keeps a list all of whose characters satisfy the class. -/
theorem takeWhile_eq_self_of {P : Char → Bool} :
    ∀ l : List Char, (∀ c ∈ l, P c = true) → l.takeWhile P = l := by
  intro l
  induction l with
  | nil => simp
  | cons c cs ih =>
    intro h
    rw [List.takeWhile_cons, if_pos (h c (by simp))]
    rw [ih (fun x hx => h x (List.mem_cons_of_mem c hx))]

/-- The comment matcher fails where the input does not start with the quote. -/
theorem matchCommentAt_cons_ne {c : Char} {cs : List Char} (h : ¬ c = sqc) :
    matchCommentAt (c :: cs) = none := by
  simp [matchCommentAt, commentCore, litCS, h]

/-- At a quote followed by a non-empty newline-free text, the comment matcher
captures exactly that text and consumes the whole input. -/
theorem matchCommentAt_quote (post : List Char) (hnl : ∀ c ∈ post, ¬ c = '\n')
    (hne : post ≠ []) :
    matchCommentAt (sqc :: post) = some (String.mk post, post.length + 1) := by
  have hdot : post.takeWhile isDot = post :=
    takeWhile_eq_self_of post (fun c hc => by
      have := hnl c hc
      simp [isDot]
      exact this)
  obtain ⟨q, qs, rfl⟩ : ∃ q qs, post = q :: qs := by
    cases post with
    | nil => exact absurd rfl hne
    | cons q qs => exact ⟨q, qs, rfl⟩
  simp only [matchCommentAt, commentCore, litCS, ite_true, eq_self_iff_true, Option.some_bind]
  rw [show plusCandsC isDot (q :: qs) =
      (List.range (q :: qs).length).map
        (fun i => ((q :: qs).take ((q :: qs).length - i), (q :: qs).drop ((q :: qs).length - i)))
    from by rw [plusCandsC, hdot]]
  rw [show (q :: qs).length = qs.length + 1 from rfl, List.range_succ_eq_map]
  simp only [List.map_cons, List.findSome?_cons, Nat.sub_zero]
  have hdropall : List.drop (qs.length + 1) (q :: qs) = [] :=
    List.drop_of_length_le (by simp)
  have htakeall : List.take (qs.length + 1) (q :: qs) = q :: qs :=
    List.take_of_length_le (by simp)
  rw [hdropall, htakeall]
  simp

/-- A quote at the very end of the input does not match: the dot-plus of the
pattern needs at least one character before the end of the line. -/
theorem matchCommentAt_lone_quote : matchCommentAt (sqc :: []) = none := by
  decide

/-- findAllF on the empty input, whatever the fuel. -/
theorem findAllF_nil_input {α : Type} (matchAt : Option Char → List Char → Option (α × Nat)) :
    ∀ fuel prev, findAllF matchAt fuel prev [] = [] := by
  intro fuel prev
  cases fuel <;> simp [findAllF]

/-- findAllF step at a non-matching position. -/
theorem findAllF_cons_nomatch {α : Type} (matchAt : Option Char → List Char → Option (α × Nat))
    (fuel : Nat) (prev : Option Char) (c : Char) (cs : List Char)
    (h : matchAt prev (c :: cs) = none) :
    findAllF matchAt (fuel + 1) prev (c :: cs) = findAllF matchAt fuel (some c) cs := by
  simp [findAllF, h]

/-- findAllF step at a match consuming n characters. -/
theorem findAllF_cons_match {α : Type} (matchAt : Option Char → List Char → Option (α × Nat))
    (fuel : Nat) (prev : Option Char) (c : Char) (cs : List Char) (t : α) (n : Nat)
    (h : matchAt prev (c :: cs) = some (t, n)) (hn : n ≠ 0) :
    findAllF matchAt (fuel + 1) prev (c :: cs) =
      t :: findAllF matchAt fuel ((c :: cs).get? (n - 1)) ((c :: cs).drop n) := by
  simp [findAllF, h, hn]

/-- The previous-character argument is irrelevant when the matcher ignores it. -/
theorem findAllF_prev {α : Type} (m : List Char → Option (α × Nat)) :
    ∀ (fuel : Nat) (p1 p2 : Option Char) (l : List Char),
      findAllF (fun _ t => m t) fuel p1 l = findAllF (fun _ t => m t) fuel p2 l := by
  intro fuel p1 p2 l
  cases fuel with
  | zero => rfl
  | succ f =>
    cases l with
    | nil => rfl
    | cons c cs => simp only [findAllF]

/-- The fuel is irrelevant once it covers the input length. -/
theorem findAllF_fuel {α : Type} (matchAt : Option Char → List Char → Option (α × Nat)) :
    ∀ f1 f2 : Nat, ∀ prev : Option Char, ∀ l : List Char, l.length ≤ f1 → l.length ≤ f2 →
      findAllF matchAt f1 prev l = findAllF matchAt f2 prev l := by
  intro f1
  induction f1 with
  | zero =>
    intro f2 prev l h1 _
    have hl : l = [] := List.length_eq_zero.mp (Nat.le_zero.mp h1)
    subst hl
    rw [findAllF_nil_input, findAllF_nil_input]
  | succ f ih =>
    intro f2 prev l h1 h2
    cases l with
    | nil => rw [findAllF_nil_input, findAllF_nil_input]
    | cons c cs =>
      cases f2 with
      | zero => simp at h2
      | succ g =>
        cases hm : matchAt prev (c :: cs) with
        | none =>
          rw [findAllF_cons_nomatch matchAt f prev c cs hm,
            findAllF_cons_nomatch matchAt g prev c cs hm]
          exact ih g (some c) cs (by simpa using h1) (by simpa using h2)
        | some p =>
          obtain ⟨t, n⟩ := p
          by_cases hn : n = 0
          · subst hn
            have e1 : findAllF matchAt (f + 1) prev (c :: cs) =
                t :: findAllF matchAt f (some c) cs := by simp [findAllF, hm]
            have e2 : findAllF matchAt (g + 1) prev (c :: cs) =
                t :: findAllF matchAt g (some c) cs := by simp [findAllF, hm]
            rw [e1, e2, ih g (some c) cs (by simpa using h1) (by simpa using h2)]
          · rw [findAllF_cons_match matchAt f prev c cs t n hm hn,
              findAllF_cons_match matchAt g prev c cs t n hm hn]
            rw [ih g ((c :: cs).get? (n - 1)) ((c :: cs).drop n)
              (by simp [List.length_drop] at h1 ⊢; omega)
              (by simp [List.length_drop] at h2 ⊢; omega)]

/-- Scanning a quote-free prefix, then a quote followed by non-empty
newline-free text, yields exactly that one comment. -/
theorem commentScan_one : ∀ pre : List Char, ∀ fuel : Nat, ∀ prev : Option Char,
    ∀ post : List Char,
    (∀ c ∈ pre, ¬ c = sqc) → (∀ c ∈ post, ¬ c = '
') → post ≠ [] →
    (pre ++ sqc :: post).length ≤ fuel →
    findAllF (fun _ t => matchCommentAt t) fuel prev (pre ++ sqc :: post) =
      [String.mk post] := by
  intro pre
  induction pre with
  | nil =>
    intro fuel prev post _ hnl hne hf
    cases fuel with
    | zero => simp at hf
    | succ f =>
      have hd : (sqc :: post).drop (post.length + 1) = [] := List.drop_of_length_le (by simp)
      simp only [List.nil_append, findAllF, matchCommentAt_quote post hnl hne]
      rw [if_neg (by omega)]
      rw [hd, findAllF_nil_input]
  | cons c pre' ih =>
    intro fuel prev post hq hnl hne hf
    cases fuel with
    | zero => simp at hf
    | succ f =>
      have hc : ¬ c = sqc := hq c (by simp)
      simp only [List.cons_append, findAllF, matchCommentAt_cons_ne hc]
      exact ih f (some c) post (fun x hx => hq x (List.mem_cons_of_mem c hx)) hnl hne
        (by simp at hf ⊢; omega)

/-- Scanning a quote-free prefix followed by a final lone quote yields no
comment at all. -/
theorem commentScan_lone : ∀ pre : List Char, ∀ fuel : Nat, ∀ prev : Option Char,
    (∀ c ∈ pre, ¬ c = sqc) →
    findAllF (fun _ t => matchCommentAt t) fuel prev (pre ++ [sqc]) = [] := by
  intro pre
  induction pre with
  | nil =>
    intro fuel prev _
    cases fuel with
    | zero => simp [findAllF]
    | succ f =>
      simp only [List.nil_append, findAllF, matchCommentAt_lone_quote]
      exact findAllF_nil_input _ f (some sqc)
  | cons c pre' ih =>
    intro fuel prev hq
    cases fuel with
    | zero => simp [findAllF]
    | succ f =>
      have hc : ¬ c = sqc := hq c (by simp)
      simp only [List.cons_append, findAllF, matchCommentAt_cons_ne hc]
      exact ih f (some c) (fun x hx => hq x (List.mem_cons_of_mem c hx))

/-- On a line of a longer text, takeWhile for dot stops exactly at the line
boundary. -/
theorem takeWhile_isDot_line : ∀ post rest : List Char, (∀ c ∈ post, ¬ c = '\n') →
    (post ++ '\n' :: rest).takeWhile isDot = post := by
  intro post rest
  induction post with
  | nil =>
    intro _
    rw [List.nil_append, List.takeWhile_cons]
    simp [isDot]
  | cons c cs ih =>
    intro h
    rw [List.cons_append, List.takeWhile_cons, if_pos (by
      have hcn := h c (by simp)
      simp [isDot]
      exact hcn)]
    rw [ih (fun x hx => h x (List.mem_cons_of_mem c hx))]

/-- At a quote followed by a non-empty newline-free line remainder and then a
newline, the comment matcher captures exactly the line remainder: the greedy
dot-plus is truncated at the newline, where the multiline anchor holds. -/
theorem matchCommentAt_quote_line (post rest : List Char)
    (hnl : ∀ c ∈ post, ¬ c = '\n') (hne : post ≠ []) :
    matchCommentAt (sqc :: (post ++ '\n' :: rest)) =
      some (String.mk post, post.length + 1) := by
  have hdot : (post ++ '\n' :: rest).takeWhile isDot = post :=
    takeWhile_isDot_line post rest hnl
  obtain ⟨q, qs, rfl⟩ : ∃ q qs, post = q :: qs := by
    cases post with
    | nil => exact absurd rfl hne
    | cons q qs => exact ⟨q, qs, rfl⟩
  simp only [matchCommentAt, commentCore, litCS, ite_true, eq_self_iff_true, Option.some_bind]
  rw [plusCandsC, hdot]
  rw [show (q :: qs).length = qs.length + 1 from rfl, List.range_succ_eq_map]
  simp only [List.map_cons, List.findSome?_cons, Nat.sub_zero]
  have htake : ((q :: qs) ++ '\n' :: rest).take (qs.length + 1) = q :: qs :=
    List.take_left (q :: qs) ('\n' :: rest)
  have hdrop : ((q :: qs) ++ '\n' :: rest).drop (qs.length + 1) = '\n' :: rest :=
    List.drop_left (q :: qs) ('\n' :: rest)
  rw [htake, hdrop]
  simp [List.length_append]
  omega

/-- A quote immediately followed by a newline does not match: the dot-plus of
the pattern needs at least one character before the end of the line. -/
theorem matchCommentAt_quote_nl (rest : List Char) :
    matchCommentAt (sqc :: '\n' :: rest) = none := by
  have htw : ('\n' :: rest).takeWhile isDot = [] := by
    rw [List.takeWhile_cons]
    simp [isDot]
  simp [matchCommentAt, commentCore, litCS, plusCandsC, htw]

/-- Scanning a quote-free prefix, a marked line remainder, a newline and then
arbitrary further text yields the line comment followed by the scan of the
further text. -/
theorem commentScan_line : ∀ pre : List Char, ∀ fuel : Nat, ∀ prev : Option Char,
    ∀ post rest : List Char,
    (∀ c ∈ pre, ¬ c = sqc) → (∀ c ∈ post, ¬ c = '\n') → post ≠ [] →
    (pre ++ sqc :: (post ++ '\n' :: rest)).length ≤ fuel →
    findAllF (fun _ t => matchCommentAt t) fuel prev (pre ++ sqc :: (post ++ '\n' :: rest)) =
      String.mk post :: findAllF (fun _ t => matchCommentAt t) rest.length none rest := by
  intro pre
  induction pre with
  | nil =>
    intro fuel prev post rest _ hnl hne hf
    cases fuel with
    | zero => simp at hf
    | succ f =>
      have hflen : post.length + rest.length + 1 ≤ f := by
        simp [List.length_append] at hf
        omega
      rw [List.nil_append,
        findAllF_cons_match (fun _ t => matchCommentAt t) f prev sqc (post ++ '\n' :: rest)
          (String.mk post) (post.length + 1) (matchCommentAt_quote_line post rest hnl hne)
          (by omega)]
      have hdrop : (sqc :: (post ++ '\n' :: rest)).drop (post.length + 1) = '\n' :: rest := by
        rw [List.drop_succ_cons]
        exact List.drop_left post ('\n' :: rest)
      rw [hdrop]
      cases f with
      | zero => omega
      | succ g =>
        rw [findAllF_cons_nomatch (fun _ t => matchCommentAt t) g
          ((sqc :: (post ++ '\n' :: rest)).get? (post.length + 1 - 1)) '\n' rest
          (matchCommentAt_cons_ne (by decide))]
        rw [findAllF_prev matchCommentAt g (some '\n') none rest]
        rw [findAllF_fuel _ g rest.length none rest (by omega) (le_refl _)]
  | cons c pre' ih =>
    intro fuel prev post rest hq hnl hne hf
    cases fuel with
    | zero => simp at hf
    | succ f =>
      rw [List.cons_append,
        findAllF_cons_nomatch (fun _ t => matchCommentAt t) f prev c
          (pre' ++ sqc :: (post ++ '\n' :: rest))
          (matchCommentAt_cons_ne (hq c (by simp)))]
      exact ih f (some c) post rest (fun x hx => hq x (List.mem_cons_of_mem c hx)) hnl hne
        (by simp at hf ⊢; omega)

/-- Scanning a quote-free prefix, a quote immediately before a newline and
then arbitrary further text yields exactly the scan of the further text. -/
theorem commentScan_markNl : ∀ pre : List Char, ∀ fuel : Nat, ∀ prev : Option Char,
    ∀ rest : List Char, (∀ c ∈ pre, ¬ c = sqc) →
    (pre ++ sqc :: '\n' :: rest).length ≤ fuel →
    findAllF (fun _ t => matchCommentAt t) fuel prev (pre ++ sqc :: '\n' :: rest) =
      findAllF (fun _ t => matchCommentAt t) rest.length none rest := by
  intro pre
  induction pre with
  | nil =>
    intro fuel prev rest _ hf
    cases fuel with
    | zero => simp at hf
    | succ f =>
      have hflen : rest.length + 1 ≤ f := by
        simp at hf
        omega
      rw [List.nil_append,
        findAllF_cons_nomatch (fun _ t => matchCommentAt t) f prev sqc ('\n' :: rest)
          (matchCommentAt_quote_nl rest)]
      cases f with
      | zero => omega
      | succ g =>
        rw [findAllF_cons_nomatch (fun _ t => matchCommentAt t) g (some sqc) '\n' rest
          (matchCommentAt_cons_ne (by decide))]
        rw [findAllF_prev matchCommentAt g (some '\n') none rest]
        rw [findAllF_fuel _ g rest.length none rest (by omega) (le_refl _)]
  | cons c pre' ih =>
    intro fuel prev rest hq hf
    cases fuel with
    | zero => simp at hf
    | succ f =>
      rw [List.cons_append,
        findAllF_cons_nomatch (fun _ t => matchCommentAt t) f prev c
          (pre' ++ sqc :: '\n' :: rest)
          (matchCommentAt_cons_ne (hq c (by simp)))]
      exact ih f (some c) rest (fun x hx => hq x (List.mem_cons_of_mem c hx))
        (by simp at hf ⊢; omega)

/-- C4 (amended): each line whose first single-quote marker is followed by at
least one character yields exactly one comment, whose body runs from the first
marker exclusive to the end of that line and no further, even when the line
holds further quote characters, and the scan then continues independently with
the text after that line; a line whose first marker is its last character
yields no comment, and quote-free text yields none.  The five cases cover
every way a text decomposes at its first marker, so together they determine
the comments field line by line. -/
theorem c4_one_comment_per_marked_line :
    (∀ pre post rest : List Char, (∀ c ∈ pre, ¬ c = sqc) →
      (∀ c ∈ post, ¬ c = '\n') → post ≠ [] →
      findCommentsL (pre ++ sqc :: (post ++ '\n' :: rest)) =
        String.mk post :: findCommentsL rest) ∧
    (∀ pre post : List Char, (∀ c ∈ pre, ¬ c = sqc) → (∀ c ∈ post, ¬ c = '\n') →
      post ≠ [] → findCommentsL (pre ++ sqc :: post) = [String.mk post]) ∧
    (∀ pre rest : List Char, (∀ c ∈ pre, ¬ c = sqc) →
      findCommentsL (pre ++ sqc :: '\n' :: rest) = findCommentsL rest) ∧
    (∀ pre : List Char, (∀ c ∈ pre, ¬ c = sqc) → findCommentsL (pre ++ [sqc]) = []) ∧
    (∀ l : List Char, (∀ c ∈ l, ¬ c = sqc) → findCommentsL l = []) := by
  refine ⟨?_, ?_, ?_, ?_, ?_⟩
  · intro pre post rest hq hnl hne
    exact commentScan_line pre (pre ++ sqc :: (post ++ '\n' :: rest)).length none post rest
      hq hnl hne (le_refl _)
  · intro pre post hq hnl hne
    exact commentScan_one pre (pre ++ sqc :: post).length none post hq hnl hne (le_refl _)
  · intro pre rest hq
    exact commentScan_markNl pre (pre ++ sqc :: '\n' :: rest).length none rest hq (le_refl _)
  · intro pre hq
    exact commentScan_lone pre (pre ++ [sqc]).length none hq
  · intro l hq
    exact findAllF_nil_of_none _ (fun c => !(c == sqc))
      (fun prev t ht => by
        cases t with
        | nil => rfl
        | cons c cs =>
          exact matchCommentAt_cons_ne (by
            have := ht c (by simp)
            simpa using this))
      l l.length none (fun c hc => by simpa using hq c hc)

/-- C4 is false as stated: this line contains a single-quote marker, yet the
comments pass yields no entry, because the marker is the last character of the
line and the dot-plus of the pattern needs a character after it. -/
theorem c4_counterexample :
    sqc ∈ lineBareQuote ∧ findCommentsL lineBareQuote = [] :=
  ⟨by decide, by decide⟩

/-- Witness for C4 on a two-line text: the first marked line yields its
comment truncated at the newline, and the second marked line, which holds two
quote characters, yields exactly one comment starting after its first
marker. -/
theorem c4_witness :
    findCommentsL (( "x = 1 ".toList) ++ sqc :: (( "see docs".toList) ++ '\n' ::
        (( "y = 2 ".toList) ++ sqc :: ('a' :: sqc :: 'b' :: [])))) =
      [String.mk ( "see docs".toList), String.mk ('a' :: sqc :: 'b' :: [])] := by
  rw [c4_one_comment_per_marked_line.1 ( "x = 1 ".toList) ( "see docs".toList)
    (( "y = 2 ".toList) ++ sqc :: ('a' :: sqc :: 'b' :: []))
    (by decide) (by decide) (by decide)]
  rw [c4_one_comment_per_marked_line.2.1 ( "y = 2 ".toList) ('a' :: sqc :: 'b' :: [])
    (by decide) (by decide) (by decide)]

/-! ## Where a conditional match can end -/

/-- Dropping the length of the matched prefix is the same as dropWhile. -/
theorem drop_length_takeWhile (P : Char → Bool) :
    ∀ l : List Char, l.drop ((l.takeWhile P).length) = l.dropWhile P := by
  intro l
  induction l with
  | nil => rfl
  | cons c cs ih =>
    rw [List.takeWhile_cons, List.dropWhile_cons]
    by_cases hc : P c
    · rw [if_pos hc, if_pos hc]
      simpa using ih
    · rw [if_neg hc, if_neg hc]
      rfl

/-- After dropping the characters matched by dot, the rest is empty or starts
with a newline. -/
theorem dropWhile_isDot_head : ∀ l : List Char,
    l.dropWhile isDot = [] ∨ (l.dropWhile isDot).head? = some '\n' := by
  intro l
  induction l with
  | nil => left; rfl
  | cons c cs ih =>
    by_cases hc : isDot c
    · rw [List.dropWhile_cons, if_pos hc]
      exact ih
    · rw [List.dropWhile_cons, if_neg hc]
      right
      have hcn : c = '\n' := by simpa [isDot] using hc
      simp [hcn]

/-- A final greedy dot-plus piece takes its longest candidate: the search over
its candidates with an always-successful continuation returns the dropWhile
rest. -/
theorem plusCands_findSome_id (P : Char → Bool) (l b : List Char)
    (h : (plusCands P l).findSome? (fun r => some r) = some b) : b = l.dropWhile P := by
  unfold plusCands at h
  cases hm : (l.takeWhile P).length with
  | zero => rw [hm] at h; simp [List.findSome?] at h
  | succ k =>
    rw [hm, List.range_succ_eq_map] at h
    simp only [List.map_cons, List.findSome?_cons, Nat.sub_zero] at h
    have hd : l.drop (k + 1) = l.dropWhile P := by
      rw [← hm]
      exact drop_length_takeWhile P l
    rw [hd] at h
    exact (Option.some_inj.mp h).symm

/-- Every candidate of a greedy repetition is a suffix of its input. -/
theorem plusCands_mem_suffix {P : Char → Bool} {l r : List Char}
    (h : r ∈ plusCands P l) : r <:+ l := by
  unfold plusCands at h
  obtain ⟨i, _, rfl⟩ := List.mem_map.mp h
  exact List.drop_suffix _ _

/-- A case-insensitive literal consumes a prefix: its rest is a suffix. -/
theorem litCI_suffix : ∀ pat l r : List Char, litCI pat l = some r → r <:+ l := by
  intro pat
  induction pat with
  | nil =>
    intro l r h
    simp [litCI] at h
    rw [← h]
  | cons p ps ih =>
    intro l r h
    cases l with
    | nil => simp [litCI] at h
    | cons c cs =>
      rw [litCI] at h
      by_cases hc : c.toLower = p
      · rw [if_pos hc] at h
        exact (ih cs r h).trans (List.suffix_cons c cs)
      · rw [if_neg hc] at h
        simp at h

/-- C2 (amended): every conditional match leaves a rest that is a suffix of
the input beginning at a line boundary, so each recorded conditional mention
runs to the end of some source line; the mention may begin on an earlier line,
because the whitespace between If, the condition, Then and the tail may
contain newlines. -/
theorem c2_conditional_ends_at_line_end (l r : List Char) (h : condCore l = some r) :
    (r = [] ∨ r.head? = some '\n') ∧ r <:+ l := by
  unfold condCore at h
  rw [Option.bind_eq_some] at h
  obtain ⟨l1, h1, h⟩ := h
  obtain ⟨l2, hl2, h⟩ := List.exists_of_findSome?_eq_some h
  obtain ⟨l3, hl3, h⟩ := List.exists_of_findSome?_eq_some h
  obtain ⟨l4, hl4, h⟩ := List.exists_of_findSome?_eq_some h
  rw [Option.bind_eq_some] at h
  obtain ⟨l5, h5, h⟩ := h
  obtain ⟨l6, hl6, h⟩ := List.exists_of_findSome?_eq_some h
  have hr : r = l6.dropWhile isDot := plusCands_findSome_id isDot l6 r h
  constructor
  · rw [hr]
    exact dropWhile_isDot_head l6
  · have s7 : r <:+ l6 := by
      rw [hr, ← drop_length_takeWhile isDot l6]
      exact List.drop_suffix _ _
    exact s7.trans ((plusCands_mem_suffix hl6).trans ((litCI_suffix _ _ _ h5).trans
      ((plusCands_mem_suffix hl4).trans ((plusCands_mem_suffix hl3).trans
        ((plusCands_mem_suffix hl2).trans (litCI_suffix _ _ _ h1))))))

/-- Witness for C2 at a concrete conditional followed by a further line. -/
theorem c2_witness :
    (( "\nZ".toList) = [] ∨ ( "\nZ".toList).head? = some '\n') ∧
      ( "\nZ".toList) <:+ srcIfRest :=
  c2_conditional_ends_at_line_end srcIfRest ( "\nZ".toList) (by decide)

/-- C2 is false as stated: a conditional mention can extend beyond the source
line containing the If and Then, and a whitespace-separated multi-line If,
Then, End If block is matched as a unit. -/
theorem c2_counterexample :
    findCondsL srcIfCont = [ "If a Then\nb"] ∧ '\n' ∈ srcIfCont ∧
    findCondsL srcIfBlock = [ "If a\nThen\nEnd If"] :=
  ⟨by decide, by decide, by decide⟩

/-- C8: for a comments sequence with more than ten entries, the rendered
Comments block is the heading, exactly the first ten comments verbatim, one
summary line naming the count minus ten, and the spacer. -/
theorem c8_comments_truncated_at_ten (cs : List String) (h : 10 < cs.length) :
    commentLines cs =
      [Flowable.para "Comments:" "Heading2"] ++
        (cs.take 10).map (fun c => Flowable.para c "Normal") ++
        [Flowable.para ( "... and " ++ toString (cs.length - 10) ++ " more comments")
          "Normal"] ++
        [Flowable.spacer 1 12] ∧
    (cs.take 10).length = 10 := by
  have hne : cs.isEmpty = false := by
    cases cs with
    | nil => simp at h
    | cons a t => rfl
  constructor
  · rw [commentLines, hne]
    simp [h]
  · rw [List.length_take]
    omega

/-- Witness for C8 at twelve comments: ten rendered entries and the summary
line naming two more. -/
theorem c8_witness :
    commentLines twelveComments =
      [Flowable.para "Comments:" "Heading2"] ++
        (twelveComments.take 10).map (fun c => Flowable.para c "Normal") ++
        [Flowable.para "... and 2 more comments" "Normal"] ++
        [Flowable.spacer 1 12] :=
  ((c8_comments_truncated_at_ten twelveComments (by decide)).1).trans (by decide)
